import Mathlib

/-!
Shallow embedding of src/hash.py: an open-addressing hash table with double
hashing (plain insertion and Brent's variation), lookup and tombstone-based
deletion.  Python integers are modelled by Int, Python's remainder operator
by Int.fmod (both give the remainder the sign of the divisor), Python None
by Option.none.  A table slot is None (Empty), a HashEntry whose key is None
(tombstone, called free after deletion), or a HashEntry with a real key
(occupied).  The for-loops of the source become structural recursion on the
number of remaining iterations.
-/

namespace DoubleHash

/-- Wrapper for hash table entries (class HashEntry).  After a delete the key
and the value are both set to None, so both fields are Options. -/
structure HashEntry (V : Type) where
  key : Option Int
  value : Option V
deriving DecidableEq

/-- The hash table (class HashTable): the list of slots and the stored size
field _m.  In every table built by the constructor, m equals the length of
the slot list. -/
structure HashTable (V : Type) where
  table : List (Option (HashEntry V))
  m : Nat
deriving DecidableEq

/-- Python's % on integers: remainder of floor division, result has the sign
of the divisor. -/
def pymod (a b : Int) : Int := Int.fmod a b

/-- Constructor __init__: size slots, all None. -/
def HashTable.init (V : Type) (size : Nat) : HashTable V :=
  ⟨List.replicate size none, size⟩

/-- hk: primary hash, k mod m guarded against m = 0. -/
def hk (k : Int) (m : Nat) : Int := if m = 0 then 0 else pymod k (m : Int)

/-- hk2: step hash, 0 when m = 2, else 1 + (k mod (m - 2)) where m - 2 is
computed over the integers exactly as Python does. -/
def hk2 (k : Int) (m : Nat) : Int :=
  if m = 2 then 0 else 1 + pymod k ((m : Int) - 2)

/-- The probe position computed at the top of every loop of the source:
(hk(key, m) - i * hk2(key, m)) % m. -/
def probe (k : Int) (i : Nat) (m : Nat) : Int :=
  pymod (hk k m - (i : Int) * hk2 k m) (m : Int)

/-- Reading a slot of the table.  Out-of-range reads yield none; the
operations below only index with in-range probe positions. -/
def HashTable.slotAt {V : Type} (t : HashTable V) (p : Nat) :
    Option (HashEntry V) := t.table.getD p none

/-- is_empty: the slot holds None (no HashEntry object). -/
def HashTable.is_empty {V : Type} (t : HashTable V) (p : Nat) : Bool :=
  (t.slotAt p).isNone

/-- is_free: the slot is empty, or its entry's key is None (deleted). -/
def HashTable.is_free {V : Type} (t : HashTable V) (p : Nat) : Bool :=
  match t.slotAt p with
  | none => true
  | some e => e.key.isNone

/-- The key stored at a slot, None when the slot is empty or deleted.  In
the source this is the attribute access self.table[index].key, which is only
reached on slots known to hold an entry. -/
def HashTable.keyAt {V : Type} (t : HashTable V) (p : Nat) : Option Int :=
  (t.slotAt p).bind (fun e => e.key)

/-- The value stored at a slot, as self.table[index].value. -/
def HashTable.valueAt {V : Type} (t : HashTable V) (p : Nat) : Option V :=
  (t.slotAt p).bind (fun e => e.value)

/-- set_key_value: both branches of the source (fresh HashEntry, or reuse of
the existing object) leave the slot holding an entry with the given key and
value; object identity is not observable in the model. -/
def HashTable.set_key_value {V : Type} (t : HashTable V) (index : Nat)
    (k : Int) (v : Option V) : HashTable V :=
  { t with table := t.table.set index (some ⟨some k, v⟩) }

/-- Loop body of insert: iteration index i, remaining iterations fuel. -/
def insertAux {V : Type} (t : HashTable V) (k : Int) (v : Option V) :
    Nat → Nat → Int × HashTable V
  | _, 0 => (-1, t)
  | i, fuel + 1 =>
    let hash : Int := probe k i t.m
    if t.is_free hash.toNat then (hash, t.set_key_value hash.toNat k v)
    else if t.keyAt hash.toNat = some k then (-1, t)
    else insertAux t k v (i + 1) fuel

/-- insert: double hashing without Brent.  Returns the index where the entry
was written, or -1 on a duplicate key or exhaustion, along with the table
after the call. -/
def HashTable.insert {V : Type} (t : HashTable V) (k : Int) (v : Option V) :
    Int × HashTable V :=
  insertAux t k v 0 t.m

/-- Loop body of insert_brent. -/
def insertBrentAux {V : Type} (t : HashTable V) (k : Int) (v : Option V) :
    Nat → Nat → Int × HashTable V
  | _, 0 => (-1, t)
  | i, fuel + 1 =>
    let hash : Int := probe k i t.m
    if t.is_free hash.toNat then (hash, t.set_key_value hash.toNat k v)
    else if t.keyAt hash.toNat = some k then (-1, t)
    else
      let hash1 : Int := pymod (hash - hk2 k t.m) (t.m : Int)
      if t.is_free hash1.toNat then (hash1, t.set_key_value hash1.toNat k v)
      else
        match t.slotAt hash.toNat with
        | none => (-1, t)
        | some e =>
          match e.key with
          | none => (-1, t)
          | some ek =>
            let hash2 : Int := pymod (hash - hk2 ek t.m) (t.m : Int)
            if t.is_free hash2.toNat then
              (hash, (t.set_key_value hash2.toNat ek e.value).set_key_value
                hash.toNat k v)
            else insertBrentAux t k v (i + 1) fuel

/-- insert_brent: double hashing with Brent's variation.  The two inner
match fallbacks are unreachable: they correspond to reading .key from a slot
that the is_free check just proved to hold an entry with a real key. -/
def HashTable.insert_brent {V : Type} (t : HashTable V) (k : Int)
    (v : Option V) : Int × HashTable V :=
  insertBrentAux t k v 0 t.m

/-- Loop body of get_position: skip free slots, stop at the first occupied
slot whose key equals k. -/
def getPositionAux {V : Type} (t : HashTable V) (k : Int) :
    Nat → Nat → Int
  | _, 0 => -1
  | i, fuel + 1 =>
    let hash : Int := probe k i t.m
    if t.is_free hash.toNat then getPositionAux t k (i + 1) fuel
    else if t.keyAt hash.toNat = some k then hash
    else getPositionAux t k (i + 1) fuel

/-- get_position: index of the slot holding key k, or -1. -/
def HashTable.get_position {V : Type} (t : HashTable V) (k : Int) : Int :=
  getPositionAux t k 0 t.m

/-- retrieve: value stored under key k, or None. -/
def HashTable.retrieve {V : Type} (t : HashTable V) (k : Int) : Option V :=
  let hash := t.get_position k
  if hash = -1 then none else t.valueAt hash.toNat

/-- Effect of HashEntry.delete on slot p: the entry object stays in place
with its key and value cleared to None. -/
def HashTable.tombstoneAt {V : Type} (t : HashTable V) (p : Nat) :
    HashTable V :=
  { t with table := t.table.set p (some ⟨none, none⟩) }

/-- delete: find the key, clear the entry's key and value (HashEntry.delete),
return the index; -1 when the key is absent. -/
def HashTable.delete {V : Type} (t : HashTable V) (k : Int) :
    Int × HashTable V :=
  let hash := t.get_position k
  if hash = -1 then (-1, t)
  else (hash, t.tombstoneAt hash.toNat)

/-- The public operations, for reasoning about call sequences. -/
inductive Op (V : Type) where
  | ins (k : Int) (v : Option V)
  | insB (k : Int) (v : Option V)
  | del (k : Int)
  | ret (k : Int)
deriving DecidableEq

/-- Effect of one operation on the table; retrieve reads but never writes. -/
def step {V : Type} (t : HashTable V) : Op V → HashTable V
  | .ins k v => (t.insert k v).2
  | .insB k v => (t.insert_brent k v).2
  | .del k => (t.delete k).2
  | .ret _ => t

/-- Run a sequence of operations on a freshly constructed table. -/
def run (V : Type) (size : Nat) (ops : List (Op V)) : HashTable V :=
  ops.foldl step (HashTable.init V size)

/-- Whether an operation is a plain insert or a retrieve. -/
def Op.isInsOrRet {V : Type} : Op V → Bool
  | .ins _ _ => true
  | .ret _ => true
  | _ => false

/-- Well-formedness: the stored size field agrees with the slot count; true
of every table the constructor builds and preserved by every operation. -/
def WF {V : Type} (t : HashTable V) : Prop := t.m = t.table.length

/-- At most one occupied slot per distinct key. -/
def NoDupKeys {V : Type} (t : HashTable V) : Prop :=
  ∀ p q k, t.keyAt p = some k → t.keyAt q = some k → p = q

/-- Every occupied slot lies on its own key's probe sequence. -/
def OnSeq {V : Type} (t : HashTable V) : Prop :=
  ∀ p k, t.keyAt p = some k → ∃ i, i < t.m ∧ p = (probe k i t.m).toNat

/-! Basic lemmas about slots, the constructor and the probe function. -/

theorem pymod_eq_emod (a b : Int) (hb : 0 ≤ b) : pymod a b = a % b :=
  Int.fmod_eq_emod a hb

theorem m_set_key_value {V : Type} (t : HashTable V) (p : Nat) (k : Int)
    (v : Option V) : (t.set_key_value p k v).m = t.m := rfl

theorem length_set_key_value {V : Type} (t : HashTable V) (p : Nat) (k : Int)
    (v : Option V) : (t.set_key_value p k v).table.length = t.table.length :=
  List.length_set t.table p _

theorem slotAt_set_key_value_self {V : Type} (t : HashTable V) {p : Nat}
    (k : Int) (v : Option V) (hp : p < t.table.length) :
    (t.set_key_value p k v).slotAt p = some ⟨some k, v⟩ := by
  unfold HashTable.slotAt HashTable.set_key_value
  rw [List.getD_eq_getElem?_getD, List.getElem?_set_self hp]
  rfl

theorem slotAt_set_key_value_ne {V : Type} (t : HashTable V) {p q : Nat}
    (k : Int) (v : Option V) (hpq : p ≠ q) :
    (t.set_key_value p k v).slotAt q = t.slotAt q := by
  unfold HashTable.slotAt HashTable.set_key_value
  rw [List.getD_eq_getElem?_getD, List.getElem?_set_ne hpq,
    ← List.getD_eq_getElem?_getD]

theorem keyAt_set_key_value_self {V : Type} (t : HashTable V) {p : Nat}
    (k : Int) (v : Option V) (hp : p < t.table.length) :
    (t.set_key_value p k v).keyAt p = some k := by
  unfold HashTable.keyAt
  rw [slotAt_set_key_value_self t k v hp]
  rfl

theorem keyAt_set_key_value_ne {V : Type} (t : HashTable V) {p q : Nat}
    (k : Int) (v : Option V) (hpq : p ≠ q) :
    (t.set_key_value p k v).keyAt q = t.keyAt q := by
  unfold HashTable.keyAt
  rw [slotAt_set_key_value_ne t k v hpq]

theorem valueAt_set_key_value_self {V : Type} (t : HashTable V) {p : Nat}
    (k : Int) (v : Option V) (hp : p < t.table.length) :
    (t.set_key_value p k v).valueAt p = v := by
  unfold HashTable.valueAt
  rw [slotAt_set_key_value_self t k v hp]
  rfl

theorem is_free_set_key_value_self {V : Type} (t : HashTable V) {p : Nat}
    (k : Int) (v : Option V) (hp : p < t.table.length) :
    (t.set_key_value p k v).is_free p = false := by
  unfold HashTable.is_free
  rw [slotAt_set_key_value_self t k v hp]
  rfl

theorem is_free_set_key_value_ne {V : Type} (t : HashTable V) {p q : Nat}
    (k : Int) (v : Option V) (hpq : p ≠ q) :
    (t.set_key_value p k v).is_free q = t.is_free q := by
  unfold HashTable.is_free
  rw [slotAt_set_key_value_ne t k v hpq]

theorem keyAt_some_not_free {V : Type} {t : HashTable V} {p : Nat} {k : Int}
    (h : t.keyAt p = some k) : t.is_free p = false := by
  unfold HashTable.keyAt at h
  unfold HashTable.is_free
  cases hs : t.slotAt p with
  | none => rw [hs] at h; exact absurd h (by simp)
  | some e =>
    rw [hs] at h
    have hk0 : e.key = some k := h
    show e.key.isNone = false
    simp [hk0]

theorem not_free_cases {V : Type} {t : HashTable V} {p : Nat}
    (h : t.is_free p = false) :
    ∃ e kk, t.slotAt p = some e ∧ e.key = some kk := by
  unfold HashTable.is_free at h
  cases hs : t.slotAt p with
  | none => rw [hs] at h; exact absurd h (by simp)
  | some e =>
    rw [hs] at h
    have h2 : e.key.isNone = false := h
    cases hk0 : e.key with
    | none => rw [hk0] at h2; exact absurd h2 (by simp)
    | some kk => exact ⟨e, kk, rfl, hk0⟩

theorem keyAt_eq_of_not_free {V : Type} {t : HashTable V} {p : Nat}
    {e : HashEntry V} (hs : t.slotAt p = some e) :
    t.keyAt p = e.key := by
  unfold HashTable.keyAt
  rw [hs]
  rfl

theorem slotAt_init {V : Type} (size p : Nat) :
    (HashTable.init V size).slotAt p = none := by
  unfold HashTable.init HashTable.slotAt
  rw [List.getD_eq_getElem?_getD, List.getElem?_replicate]
  split <;> rfl

theorem keyAt_init {V : Type} (size p : Nat) :
    (HashTable.init V size).keyAt p = none := by
  unfold HashTable.keyAt
  rw [slotAt_init]
  rfl

theorem m_init {V : Type} (size : Nat) : (HashTable.init V size).m = size := rfl

theorem WF_init {V : Type} (size : Nat) : WF (HashTable.init V size) := by
  unfold WF HashTable.init
  simp

theorem keyAt_of_ge_length {V : Type} (t : HashTable V) {p : Nat}
    (hp : t.table.length ≤ p) : t.keyAt p = none := by
  unfold HashTable.keyAt HashTable.slotAt
  rw [List.getD_eq_getElem?_getD, List.getElem?_eq_none (by omega)]
  rfl

theorem probe_nonneg {m : Nat} (k : Int) (i : Nat) (hm : 0 < m) :
    0 ≤ probe k i m := by
  unfold probe
  rw [pymod_eq_emod _ _ (by positivity)]
  exact Int.emod_nonneg _ (by exact_mod_cast Nat.pos_iff_ne_zero.mp hm)

theorem probe_lt {m : Nat} (k : Int) (i : Nat) (hm : 0 < m) :
    probe k i m < m := by
  unfold probe
  rw [pymod_eq_emod _ _ (by positivity)]
  exact Int.emod_lt_of_pos _ (by exact_mod_cast hm)

theorem probe_toNat_lt {m : Nat} (k : Int) (i : Nat) (hm : 0 < m) :
    (probe k i m).toNat < m :=
  (Int.toNat_lt (probe_nonneg k i hm)).mpr (probe_lt k i hm)

theorem probe_toNat_cast {m : Nat} (k : Int) (i : Nat) (hm : 0 < m) :
    ((probe k i m).toNat : Int) = probe k i m :=
  Int.toNat_of_nonneg (probe_nonneg k i hm)

theorem probe_ne_neg_one {m : Nat} (k : Int) (i : Nat) (hm : 0 < m) :
    probe k i m ≠ -1 := by
  have := probe_nonneg k i hm
  omega

theorem emod_sub_left_cancel (a b n : Int) : (a % n - b) % n = (a - b) % n := by
  conv_rhs => rw [Int.sub_emod]
  conv_lhs => rw [Int.sub_emod]
  rw [Int.emod_emod_of_dvd a (dvd_refl n)]

theorem probe_succ {m : Nat} (k : Int) (j : Nat) (hm : 0 < m) :
    pymod (probe k j m - hk2 k m) (m : Int) = probe k (j + 1) m := by
  have hle : (0 : Int) ≤ (m : Int) := by positivity
  unfold probe
  rw [pymod_eq_emod _ _ hle, pymod_eq_emod _ _ hle, pymod_eq_emod _ _ hle]
  have hc : hk k m - ((j : Nat) + 1 : Nat) * hk2 k m
      = (hk k m - (j : Int) * hk2 k m) - hk2 k m := by
    push_cast
    ring
  rw [hc]
  exact emod_sub_left_cancel (hk k m - (j : Int) * hk2 k m) (hk2 k m) (m : Int)

theorem probe_mod_self {m : Nat} (k : Int) (j : Nat) (hm : 0 < m) :
    probe k (j % m) m = probe k j m := by
  have hle : (0 : Int) ≤ (m : Int) := by positivity
  have hdm : (m : Int) * ((j / m : Nat) : Int) + ((j % m : Nat) : Int)
      = (j : Int) := by
    exact_mod_cast congrArg (Nat.cast : Nat → Int) (Nat.div_add_mod j m)
  have hcast : ((j % m : Nat) : Int)
      = (j : Int) - (m : Int) * ((j / m : Nat) : Int) := by omega
  unfold probe
  rw [pymod_eq_emod _ _ hle, pymod_eq_emod _ _ hle, hcast]
  have hr : hk k m - ((j : Int) - (m : Int) * ((j / m : Nat) : Int)) * hk2 k m
      = (hk k m - (j : Int) * hk2 k m)
        + (m : Int) * (((j / m : Nat) : Int) * hk2 k m) := by ring
  rw [hr, Int.add_mul_emod_self_left]

/-! Characterization of the lookup loop. -/

theorem getPosAux_not_found {V : Type} (t : HashTable V) (k : Int) :
    ∀ (fuel i : Nat),
      (∀ j, i ≤ j → j < i + fuel → t.keyAt (probe k j t.m).toNat ≠ some k) →
      getPositionAux t k i fuel = -1 := by
  intro fuel
  induction fuel with
  | zero => intro i _; rfl
  | succ n ih =>
    intro i h
    have hki : t.keyAt (probe k i t.m).toNat ≠ some k := h i le_rfl (by omega)
    have hrec : getPositionAux t k (i + 1) n = -1 :=
      ih (i + 1) (fun j hj1 hj2 => h j (by omega) (by omega))
    simp only [getPositionAux]
    cases hf : t.is_free (probe k i t.m).toNat
    · simp [hf, hki, hrec]
    · simp [hf, hrec]

theorem getPosAux_found {V : Type} (t : HashTable V) (k : Int) :
    ∀ (fuel i s : Nat), i ≤ s → s < i + fuel →
      t.keyAt (probe k s t.m).toNat = some k →
      (∀ j, i ≤ j → j < s → t.keyAt (probe k j t.m).toNat ≠ some k) →
      getPositionAux t k i fuel = probe k s t.m := by
  intro fuel
  induction fuel with
  | zero => intro i s h1 h2 _ _; omega
  | succ n ih =>
    intro i s his hs hks hpre
    simp only [getPositionAux]
    rcases Nat.eq_or_lt_of_le his with heq | hlt
    · subst heq
      have hnf : t.is_free (probe k i t.m).toNat = false :=
        keyAt_some_not_free hks
      simp [hnf, hks]
    · have hki := hpre i le_rfl hlt
      have hrec := ih (i + 1) s (by omega) (by omega) hks
        (fun j h1 h2 => hpre j (by omega) h2)
      cases hf : t.is_free (probe k i t.m).toNat
      · simp [hf, hki, hrec]
      · simp [hf, hrec]

theorem getPosAux_mem {V : Type} (t : HashTable V) (k : Int) :
    ∀ (fuel i : Nat), getPositionAux t k i fuel ≠ -1 →
      ∃ j, i ≤ j ∧ j < i + fuel ∧
        getPositionAux t k i fuel = probe k j t.m ∧
        t.keyAt (probe k j t.m).toNat = some k := by
  intro fuel
  induction fuel with
  | zero => intro i h; exact absurd rfl h
  | succ n ih =>
    intro i h
    simp only [getPositionAux] at h ⊢
    cases hf : t.is_free (probe k i t.m).toNat
    · by_cases hkk : t.keyAt (probe k i t.m).toNat = some k
      · exact ⟨i, le_rfl, by omega, by simp [hf, hkk], hkk⟩
      · rw [hf] at h
        have h2 : getPositionAux t k (i + 1) n ≠ -1 := by
          simpa [hkk] using h
        obtain ⟨j, hj1, hj2, hj3, hj4⟩ := ih (i + 1) h2
        exact ⟨j, by omega, by omega, by simp [hf, hkk, hj3], hj4⟩
    · rw [hf] at h
      have h2 : getPositionAux t k (i + 1) n ≠ -1 := by simpa using h
      obtain ⟨j, hj1, hj2, hj3, hj4⟩ := ih (i + 1) h2
      exact ⟨j, by omega, by omega, by simp [hf, hj3], hj4⟩

theorem get_position_absent {V : Type} (t : HashTable V) (k : Int)
    (h : ∀ p, p < t.table.length → t.keyAt p ≠ some k) :
    t.get_position k = -1 := by
  unfold HashTable.get_position
  apply getPosAux_not_found
  intro j _ _
  by_cases hp : (probe k j t.m).toNat < t.table.length
  · exact h _ hp
  · rw [keyAt_of_ge_length t (by omega)]
    simp

theorem retrieve_absent {V : Type} (t : HashTable V) (k : Int)
    (h : ∀ p, p < t.table.length → t.keyAt p ≠ some k) :
    t.retrieve k = none := by
  unfold HashTable.retrieve
  rw [get_position_absent t k h]
  rfl

theorem delete_absent {V : Type} (t : HashTable V) (k : Int)
    (h : ∀ p, p < t.table.length → t.keyAt p ≠ some k) :
    t.delete k = (-1, t) := by
  unfold HashTable.delete
  rw [get_position_absent t k h]
  rfl

/-! Characterization of the plain insertion loop. -/

theorem insertAux_cases {V : Type} (t : HashTable V) (k : Int) (v : Option V) :
    ∀ (fuel i : Nat),
      insertAux t k v i fuel = (-1, t) ∨
      ∃ j, i ≤ j ∧ j < i + fuel ∧
        t.is_free (probe k j t.m).toNat = true ∧
        (∀ jp, i ≤ jp → jp < j →
          t.is_free (probe k jp t.m).toNat = false ∧
          t.keyAt (probe k jp t.m).toNat ≠ some k) ∧
        insertAux t k v i fuel
          = (probe k j t.m, t.set_key_value (probe k j t.m).toNat k v) := by
  intro fuel
  induction fuel with
  | zero => intro i; left; rfl
  | succ n ih =>
    intro i
    cases hf : t.is_free (probe k i t.m).toNat
    · by_cases hkk : t.keyAt (probe k i t.m).toNat = some k
      · left
        simp only [insertAux]
        simp [hf, hkk]
      · rcases ih (i + 1) with hL | ⟨j, hj1, hj2, hj3, hj4, hj5⟩
        · left
          simp only [insertAux]
          simp [hf, hkk, hL]
        · right
          refine ⟨j, by omega, by omega, hj3, ?_, ?_⟩
          · intro jp h1 h2
            rcases Nat.eq_or_lt_of_le h1 with he | hlt
            · exact he ▸ ⟨hf, hkk⟩
            · exact hj4 jp (by omega) h2
          · simp only [insertAux]
            simp [hf, hkk, hj5]
    · right
      refine ⟨i, le_rfl, by omega, hf, ?_, ?_⟩
      · intro jp h1 h2
        exact absurd (Nat.lt_of_le_of_lt h1 h2) (Nat.lt_irrefl i)
      · simp only [insertAux]
        simp [hf]

theorem insertAux_m {V : Type} (t : HashTable V) (k : Int) (v : Option V) :
    ∀ (fuel i : Nat), ((insertAux t k v i fuel).2).m = t.m := by
  intro fuel
  induction fuel with
  | zero => intro i; rfl
  | succ n ih =>
    intro i
    simp only [insertAux]
    cases hf : t.is_free (probe k i t.m).toNat
    · by_cases hkk : t.keyAt (probe k i t.m).toNat = some k
      · simp [hf, hkk]
      · simp [hf, hkk, ih (i + 1)]
    · simp [hf, m_set_key_value]

theorem insertAux_length {V : Type} (t : HashTable V) (k : Int)
    (v : Option V) :
    ∀ (fuel i : Nat),
      ((insertAux t k v i fuel).2).table.length = t.table.length := by
  intro fuel
  induction fuel with
  | zero => intro i; rfl
  | succ n ih =>
    intro i
    simp only [insertAux]
    cases hf : t.is_free (probe k i t.m).toNat
    · by_cases hkk : t.keyAt (probe k i t.m).toNat = some k
      · simp [hf, hkk]
      · simp [hf, hkk, ih (i + 1)]
    · simp [hf, length_set_key_value]

theorem insertBrentAux_m {V : Type} (t : HashTable V) (k : Int)
    (v : Option V) :
    ∀ (fuel i : Nat), ((insertBrentAux t k v i fuel).2).m = t.m := by
  intro fuel
  induction fuel with
  | zero => intro i; rfl
  | succ n ih =>
    intro i
    simp only [insertBrentAux]
    cases hf : t.is_free (probe k i t.m).toNat
    · by_cases hkk : t.keyAt (probe k i t.m).toNat = some k
      · simp [hf, hkk]
      · obtain ⟨e, ek, hse, hek⟩ := not_free_cases hf
        cases hf1 : t.is_free ((pymod (probe k i t.m - hk2 k t.m)
            (t.m : Int)).toNat)
        · cases hf2 : t.is_free ((pymod (probe k i t.m - hk2 ek t.m)
              (t.m : Int)).toNat)
          · simp [hf, hkk, hse, hek, hf1, hf2, ih (i + 1)]
          · simp [hf, hkk, hse, hek, hf1, hf2, m_set_key_value]
        · simp [hf, hkk, hf1, m_set_key_value]
    · simp [hf, m_set_key_value]

theorem insertBrentAux_length {V : Type} (t : HashTable V) (k : Int)
    (v : Option V) :
    ∀ (fuel i : Nat),
      ((insertBrentAux t k v i fuel).2).table.length = t.table.length := by
  intro fuel
  induction fuel with
  | zero => intro i; rfl
  | succ n ih =>
    intro i
    simp only [insertBrentAux]
    cases hf : t.is_free (probe k i t.m).toNat
    · by_cases hkk : t.keyAt (probe k i t.m).toNat = some k
      · simp [hf, hkk]
      · obtain ⟨e, ek, hse, hek⟩ := not_free_cases hf
        cases hf1 : t.is_free ((pymod (probe k i t.m - hk2 k t.m)
            (t.m : Int)).toNat)
        · cases hf2 : t.is_free ((pymod (probe k i t.m - hk2 ek t.m)
              (t.m : Int)).toNat)
          · simp [hf, hkk, hse, hek, hf1, hf2, ih (i + 1)]
          · simp [hf, hkk, hse, hek, hf1, hf2, length_set_key_value]
        · simp [hf, hkk, hf1, length_set_key_value]
    · simp [hf, length_set_key_value]

theorem m_tombstoneAt {V : Type} (t : HashTable V) (p : Nat) :
    (t.tombstoneAt p).m = t.m := rfl

theorem length_tombstoneAt {V : Type} (t : HashTable V) (p : Nat) :
    (t.tombstoneAt p).table.length = t.table.length :=
  List.length_set t.table p _

theorem delete_m {V : Type} (t : HashTable V) (k : Int) :
    ((t.delete k).2).m = t.m := by
  by_cases h : t.get_position k = -1 <;>
    simp [HashTable.delete, h, m_tombstoneAt]

theorem delete_length {V : Type} (t : HashTable V) (k : Int) :
    ((t.delete k).2).table.length = t.table.length := by
  by_cases h : t.get_position k = -1 <;>
    simp [HashTable.delete, h, length_tombstoneAt]

theorem step_m {V : Type} (t : HashTable V) (op : Op V) :
    (step t op).m = t.m := by
  cases op with
  | ins k v => exact insertAux_m t k v t.m 0
  | insB k v => exact insertBrentAux_m t k v t.m 0
  | del k => exact delete_m t k
  | ret _ => rfl

theorem step_length {V : Type} (t : HashTable V) (op : Op V) :
    (step t op).table.length = t.table.length := by
  cases op with
  | ins k v => exact insertAux_length t k v t.m 0
  | insB k v => exact insertBrentAux_length t k v t.m 0
  | del k => exact delete_length t k
  | ret _ => rfl

theorem WF_step {V : Type} {t : HashTable V} (h : WF t) (op : Op V) :
    WF (step t op) := by
  unfold WF at h ⊢
  rw [step_m, step_length, h]

theorem foldl_step_m {V : Type} :
    ∀ (l : List (Op V)) (t : HashTable V), (l.foldl step t).m = t.m := by
  intro l
  induction l with
  | nil => intro t; rfl
  | cons o r ih =>
    intro t
    rw [List.foldl_cons, ih, step_m]

theorem WF_foldl_step {V : Type} :
    ∀ (l : List (Op V)) (t : HashTable V), WF t → WF (l.foldl step t) := by
  intro l
  induction l with
  | nil => intro t ht; exact ht
  | cons o r ih =>
    intro t ht
    rw [List.foldl_cons]
    exact ih _ (WF_step ht o)

theorem run_m {V : Type} (size : Nat) (ops : List (Op V)) :
    (run V size ops).m = size := by
  unfold run
  rw [foldl_step_m]
  rfl

theorem WF_run {V : Type} (size : Nat) (ops : List (Op V)) :
    WF (run V size ops) :=
  WF_foldl_step ops _ (WF_init size)

/-! Characterization of the Brent insertion loop.  A run of the loop either
leaves the table untouched and yields -1, or stops at some attempt j in one
of the three placement shapes of the source: a free probe slot, a free next
probe slot for the new key (hash1), or a relocation of the existing occupant
to its own next probe slot (hash2). -/

theorem insertBrentAux_cases {V : Type} (t : HashTable V) (k : Int)
    (v : Option V) :
    ∀ (fuel i : Nat),
      insertBrentAux t k v i fuel = (-1, t) ∨
      ∃ j, i ≤ j ∧ j < i + fuel ∧
        ((t.is_free (probe k j t.m).toNat = true ∧
          insertBrentAux t k v i fuel
            = (probe k j t.m, t.set_key_value (probe k j t.m).toNat k v)) ∨
         (t.is_free (probe k j t.m).toNat = false ∧
          t.keyAt (probe k j t.m).toNat ≠ some k ∧
          t.is_free (pymod (probe k j t.m - hk2 k t.m) (t.m : Int)).toNat
            = true ∧
          insertBrentAux t k v i fuel
            = (pymod (probe k j t.m - hk2 k t.m) (t.m : Int),
               t.set_key_value
                 (pymod (probe k j t.m - hk2 k t.m) (t.m : Int)).toNat k v)) ∨
         (∃ e ek, t.slotAt (probe k j t.m).toNat = some e ∧
          e.key = some ek ∧
          t.is_free (probe k j t.m).toNat = false ∧
          t.keyAt (probe k j t.m).toNat ≠ some k ∧
          t.is_free (pymod (probe k j t.m - hk2 k t.m) (t.m : Int)).toNat
            = false ∧
          t.is_free (pymod (probe k j t.m - hk2 ek t.m) (t.m : Int)).toNat
            = true ∧
          insertBrentAux t k v i fuel
            = (probe k j t.m,
               (t.set_key_value
                 (pymod (probe k j t.m - hk2 ek t.m) (t.m : Int)).toNat
                 ek e.value).set_key_value (probe k j t.m).toNat k v))) := by
  intro fuel
  induction fuel with
  | zero => intro i; left; rfl
  | succ n ih =>
    intro i
    cases hf : t.is_free (probe k i t.m).toNat
    · by_cases hkk : t.keyAt (probe k i t.m).toNat = some k
      · left
        simp only [insertBrentAux]
        simp [hf, hkk]
      · obtain ⟨e, ek, hse, hek⟩ := not_free_cases hf
        cases hf1 : t.is_free ((pymod (probe k i t.m - hk2 k t.m)
            (t.m : Int)).toNat)
        · cases hf2 : t.is_free ((pymod (probe k i t.m - hk2 ek t.m)
              (t.m : Int)).toNat)
          · rcases ih (i + 1) with hL | ⟨j, hj1, hj2, hj3⟩
            · left
              simp only [insertBrentAux]
              simp [hf, hkk, hse, hek, hf1, hf2, hL]
            · right
              refine ⟨j, by omega, by omega, ?_⟩
              have heq : insertBrentAux t k v i (n + 1)
                  = insertBrentAux t k v (i + 1) n := by
                simp only [insertBrentAux]
                simp [hf, hkk, hse, hek, hf1, hf2]
              rw [heq]
              exact hj3
          · right
            refine ⟨i, le_rfl, by omega, Or.inr (Or.inr ⟨e, ek, hse, hek,
              hf, hkk, hf1, hf2, ?_⟩)⟩
            simp only [insertBrentAux]
            simp [hf, hkk, hse, hek, hf1, hf2]
        · right
          refine ⟨i, le_rfl, by omega, Or.inr (Or.inl ⟨hf, hkk, hf1, ?_⟩)⟩
          simp only [insertBrentAux]
          simp [hf, hkk, hf1]
    · right
      refine ⟨i, le_rfl, by omega, Or.inl ⟨hf, ?_⟩⟩
      simp only [insertBrentAux]
      simp [hf]

theorem pymod_nonneg (a : Int) {m : Nat} (hm : 0 < m) :
    0 ≤ pymod a (m : Int) := by
  rw [pymod_eq_emod _ _ (by positivity)]
  exact Int.emod_nonneg _ (by exact_mod_cast Nat.pos_iff_ne_zero.mp hm)

theorem pymod_lt (a : Int) {m : Nat} (hm : 0 < m) :
    pymod a (m : Int) < m := by
  rw [pymod_eq_emod _ _ (by positivity)]
  exact Int.emod_lt_of_pos _ (by exact_mod_cast hm)

theorem pymod_toNat_cast (a : Int) {m : Nat} (hm : 0 < m) :
    ((pymod a (m : Int)).toNat : Int) = pymod a (m : Int) :=
  Int.toNat_of_nonneg (pymod_nonneg a hm)

/-- Top-level restatement of the insertion loop analysis. -/
theorem insert_cases {V : Type} (t : HashTable V) (k : Int) (v : Option V) :
    t.insert k v = (-1, t) ∨
    ∃ j, j < t.m ∧
      t.is_free (probe k j t.m).toNat = true ∧
      (∀ jp, jp < j →
        t.is_free (probe k jp t.m).toNat = false ∧
        t.keyAt (probe k jp t.m).toNat ≠ some k) ∧
      t.insert k v
        = (probe k j t.m, t.set_key_value (probe k j t.m).toNat k v) := by
  rcases insertAux_cases t k v t.m 0 with h | ⟨j, _, hj2, hj3, hj4, hj5⟩
  · exact Or.inl h
  · exact Or.inr ⟨j, by omega, hj3,
      fun jp hp => hj4 jp (Nat.zero_le jp) hp, hj5⟩

/-- C6: a failed insert (plain or Brent) leaves the table unchanged, and the
capacity field m is unchanged by every operation. -/
theorem claim_c6_failure_no_mutation {V : Type} (t : HashTable V) (k : Int)
    (v : Option V) :
    ((t.insert k v).1 = -1 → (t.insert k v).2 = t) ∧
    ((t.insert_brent k v).1 = -1 → (t.insert_brent k v).2 = t) ∧
    (∀ op : Op V, (step t op).m = t.m) := by
  refine ⟨?_, ?_, step_m t⟩
  · intro h1
    rcases insert_cases t k v with h | ⟨j, hj1, _, _, hj5⟩
    · rw [h]
    · rw [hj5] at h1
      exact absurd h1 (probe_ne_neg_one k j (by omega))
  · intro h1
    rcases insertBrentAux_cases t k v t.m 0 with h | ⟨j, _, hj2, hcase⟩
    · show (insertBrentAux t k v 0 t.m).2 = t
      rw [h]
    · have hm : 0 < t.m := by omega
      exfalso
      rcases hcase with ⟨_, heq⟩ | ⟨_, _, _, heq⟩ |
        ⟨e, ek, _, _, _, _, _, _, heq⟩
      · rw [show t.insert_brent k v = insertBrentAux t k v 0 t.m from rfl,
          heq] at h1
        exact probe_ne_neg_one k j hm h1
      · rw [show t.insert_brent k v = insertBrentAux t k v 0 t.m from rfl,
          heq] at h1
        have := pymod_nonneg (probe k j t.m - hk2 k t.m) hm
        simp only at h1
        omega
      · rw [show t.insert_brent k v = insertBrentAux t k v 0 t.m from rfl,
          heq] at h1
        exact probe_ne_neg_one k j hm h1

/-- C6 witness: in a full table of capacity 1 holding key 0, re-inserting
key 0 fails by both algorithms and mutates nothing, and m is preserved. -/
theorem claim_c6_witness :
    ((((HashTable.init Int 1).insert 0 (some 5)).2.insert 0 (some 6)).2
        = ((HashTable.init Int 1).insert 0 (some 5)).2) ∧
    ((((HashTable.init Int 1).insert 0 (some 5)).2.insert_brent 0
        (some 6)).2 = ((HashTable.init Int 1).insert 0 (some 5)).2) ∧
    (∀ op : Op Int,
      (step ((HashTable.init Int 1).insert 0 (some 5)).2 op).m
        = ((HashTable.init Int 1).insert 0 (some 5)).2.m) :=
  ⟨(claim_c6_failure_no_mutation _ 0 (some 6)).1 (by decide),
   (claim_c6_failure_no_mutation _ 0 (some 6)).2.1 (by decide),
   (claim_c6_failure_no_mutation _ 0 (some 6)).2.2⟩

/-- C7: deleting or retrieving an absent key returns the failure signal and
leaves the table unchanged, so every key retrieves the same value afterward;
retrieve never mutates the table. -/
theorem claim_c7_absent_delete {V : Type} (t : HashTable V) (k : Int)
    (habs : ∀ p, p < t.table.length → t.keyAt p ≠ some k) :
    (t.delete k).1 = -1 ∧ (t.delete k).2 = t ∧
    (∀ k2, ((t.delete k).2).retrieve k2 = t.retrieve k2) ∧
    t.retrieve k = none ∧ step t (Op.ret k) = t := by
  have hd := delete_absent t k habs
  refine ⟨by rw [hd], by rw [hd], ?_, retrieve_absent t k habs, rfl⟩
  intro k2
  rw [hd]

/-- C7 witness: deleting key 7 from a fresh table of capacity 3. -/
theorem claim_c7_witness :
    ((HashTable.init Int 3).delete 7).1 = -1 ∧
    ((HashTable.init Int 3).delete 7).2 = HashTable.init Int 3 ∧
    (∀ k2, (((HashTable.init Int 3).delete 7).2).retrieve k2
      = (HashTable.init Int 3).retrieve k2) ∧
    (HashTable.init Int 3).retrieve 7 = none ∧
    step (HashTable.init Int 3) (Op.ret 7) = HashTable.init Int 3 :=
  claim_c7_absent_delete (HashTable.init Int 3) 7 (by decide)

/-- C10: when every slot holding key k stores the value None, retrieve
returns None, exactly the signal it returns when no slot holds key k at
all; a stored None value is indistinguishable from absence. -/
theorem claim_c10_none_value {V : Type} (t : HashTable V) (k : Int) :
    ((∀ p, p < t.table.length → t.keyAt p = some k → t.valueAt p = none) →
      t.retrieve k = none) ∧
    ((∀ p, p < t.table.length → t.keyAt p ≠ some k) →
      t.retrieve k = none) := by
  constructor
  · intro hval
    unfold HashTable.retrieve
    by_cases h : t.get_position k = -1
    · simp [h]
    · obtain ⟨j, _, _, hj3, hj4⟩ := getPosAux_mem t k t.m 0 h
      have hgp : t.get_position k = probe k j t.m := hj3
      simp only [h, if_false]
      rw [hgp]
      by_cases hp : (probe k j t.m).toNat < t.table.length
      · exact hval _ hp hj4
      · rw [keyAt_of_ge_length t (by omega)] at hj4
        exact absurd hj4 (by simp)
  · intro habs
    exact retrieve_absent t k habs

/-- C10 witness: key 5 inserted with value None retrieves as None, and so
does the absent key 7. -/
theorem claim_c10_witness :
    (((HashTable.init Int 3).insert 5 none).2.retrieve 5 = none) ∧
    (((HashTable.init Int 3).insert 5 none).2.retrieve 7 = none) :=
  ⟨(claim_c10_none_value ((HashTable.init Int 3).insert 5 none).2 5).1
      (by decide),
   (claim_c10_none_value ((HashTable.init Int 3).insert 5 none).2 7).2
      (by decide)⟩

/-! Spec-side definitions for the refinement claims.  These follow the
words of the specification, attempt by attempt over the list of attempt
numbers 0 .. m-1, and are compared with the definitions translated from the
source. -/

/-- Following the spec text: primary hash h1(k, m) = k mod m. -/
def spec_h1 (k : Int) (m : Nat) : Int := pymod k (m : Int)

/-- Following the spec text: step hash h2(k, m) = 1 + (k mod (m - 2)),
defined as 0 when m = 2. -/
def spec_h2 (k : Int) (m : Nat) : Int :=
  if m = 2 then 0 else 1 + pymod k ((m : Int) - 2)

/-- Following the spec text: probe position
pos(k, i) = (h1(k,m) - i * h2(k,m)) mod m. -/
def spec_pos (k : Int) (i m : Nat) : Int :=
  pymod (spec_h1 k m - (i : Int) * spec_h2 k m) (m : Int)

/-- Following the spec text for insert: iterate over the attempts; write
into the first free slot and return its index; stop with NOT_FOUND on an
occupied slot holding the same key; NOT_FOUND when the attempts are
exhausted. -/
def specInsertGo {V : Type} (t : HashTable V) (k : Int) (v : Option V) :
    List Nat → Int × HashTable V
  | [] => (-1, t)
  | i :: rest =>
    let p := spec_pos k i t.m
    if t.is_free p.toNat then (p, t.set_key_value p.toNat k v)
    else if t.keyAt p.toNat = some k then (-1, t)
    else specInsertGo t k v rest

/-- Following the spec text: insert examines attempts i = 0 .. m-1. -/
def specInsert {V : Type} (t : HashTable V) (k : Int) (v : Option V) :
    Int × HashTable V :=
  specInsertGo t k v (List.range t.m)

/-- Following the spec text for get_position: skip any free slot, return
the first occupied slot whose key matches, NOT_FOUND when the full probe
sequence is exhausted. -/
def specGetPositionGo {V : Type} (t : HashTable V) (k : Int) :
    List Nat → Int
  | [] => -1
  | i :: rest =>
    let p := spec_pos k i t.m
    if t.is_free p.toNat then specGetPositionGo t k rest
    else if t.keyAt p.toNat = some k then p
    else specGetPositionGo t k rest

/-- Following the spec text: lookup scans attempts i = 0 .. m-1. -/
def specGetPosition {V : Type} (t : HashTable V) (k : Int) : Int :=
  specGetPositionGo t k (List.range t.m)

/-- Following the spec text for insert_brent: at each attempt, place into a
free slot; reject a duplicate key; else try alt1, the new key's next probe
position; else try alt2, the occupant's own next probe position, relocating
the occupant there and taking its slot; else continue. -/
def specInsertBrentGo {V : Type} (t : HashTable V) (k : Int)
    (v : Option V) : List Nat → Int × HashTable V
  | [] => (-1, t)
  | i :: rest =>
    let hash := spec_pos k i t.m
    if t.is_free hash.toNat then (hash, t.set_key_value hash.toNat k v)
    else if t.keyAt hash.toNat = some k then (-1, t)
    else
      let alt1 := pymod (hash - spec_h2 k t.m) (t.m : Int)
      if t.is_free alt1.toNat then (alt1, t.set_key_value alt1.toNat k v)
      else
        match t.keyAt hash.toNat, t.valueAt hash.toNat with
        | some existing, ev =>
          let alt2 := pymod (hash - spec_h2 existing t.m) (t.m : Int)
          if t.is_free alt2.toNat then
            (hash, (t.set_key_value alt2.toNat existing ev).set_key_value
              hash.toNat k v)
          else specInsertBrentGo t k v rest
        | none, _ => specInsertBrentGo t k v rest

/-- Following the spec text: insert_brent examines attempts i = 0 .. m-1. -/
def specInsertBrent {V : Type} (t : HashTable V) (k : Int) (v : Option V) :
    Int × HashTable V :=
  specInsertBrentGo t k v (List.range t.m)

theorem spec_h2_eq_hk2 : @spec_h2 = @hk2 := rfl

theorem probe_eq_spec_pos (k : Int) (i : Nat) {m : Nat} (hm : m ≠ 0) :
    probe k i m = spec_pos k i m := by
  unfold probe spec_pos spec_h1 hk
  rw [if_neg hm, spec_h2_eq_hk2]

theorem getPosAux_eq_specGo {V : Type} (t : HashTable V) (k : Int)
    (hm : t.m ≠ 0) :
    ∀ (fuel i : Nat),
      getPositionAux t k i fuel = specGetPositionGo t k (List.range' i fuel) := by
  intro fuel
  induction fuel with
  | zero => intro i; rfl
  | succ n ih =>
    intro i
    rw [List.range'_succ i n 1]
    simp only [getPositionAux, specGetPositionGo]
    rw [← probe_eq_spec_pos k i hm, ih (i + 1)]

theorem insertAux_eq_specGo {V : Type} (t : HashTable V) (k : Int)
    (v : Option V) (hm : t.m ≠ 0) :
    ∀ (fuel i : Nat),
      insertAux t k v i fuel = specInsertGo t k v (List.range' i fuel) := by
  intro fuel
  induction fuel with
  | zero => intro i; rfl
  | succ n ih =>
    intro i
    rw [List.range'_succ i n 1]
    simp only [insertAux, specInsertGo]
    rw [← probe_eq_spec_pos k i hm, ih (i + 1)]

theorem insertBrentAux_eq_specGo {V : Type} (t : HashTable V) (k : Int)
    (v : Option V) (hm : t.m ≠ 0) :
    ∀ (fuel i : Nat),
      insertBrentAux t k v i fuel
        = specInsertBrentGo t k v (List.range' i fuel) := by
  intro fuel
  induction fuel with
  | zero => intro i; rfl
  | succ n ih =>
    intro i
    rw [List.range'_succ i n 1]
    simp only [insertBrentAux, specInsertBrentGo]
    rw [← probe_eq_spec_pos k i hm, spec_h2_eq_hk2]
    cases hf : t.is_free (probe k i t.m).toNat
    · by_cases hkk : t.keyAt (probe k i t.m).toNat = some k
      · simp [hf, hkk]
      · obtain ⟨e, ek, hse, hek⟩ := not_free_cases hf
        have hkeq : t.keyAt (probe k i t.m).toNat = some ek := by
          rw [keyAt_eq_of_not_free hse, hek]
        have hveq : t.valueAt (probe k i t.m).toNat = e.value := by
          unfold HashTable.valueAt
          rw [hse]
          rfl
        cases hf1 : t.is_free ((pymod (probe k i t.m - hk2 k t.m)
            (t.m : Int)).toNat)
        · cases hf2 : t.is_free ((pymod (probe k i t.m - hk2 ek t.m)
              (t.m : Int)).toNat)
          · simp [hf, hkk, hse, hek, hkeq, hveq, hf1, hf2, ih (i + 1)]
          · simp [hf, hkk, hse, hek, hkeq, hveq, hf1, hf2]
        · simp [hf, hkk, hf1]
    · simp [hf]

/-- C3: insert examines the probe positions pos(k, i) of the spec, in
ascending attempt order with the descending step, writes into the first
free slot and returns its index, rejects a duplicate key with NOT_FOUND,
and returns NOT_FOUND on exhaustion: the source insert coincides with the
operation described by the spec, for every table, key and value. -/
theorem claim_c3_insert_refines_spec {V : Type} (t : HashTable V) (k : Int)
    (v : Option V) : t.insert k v = specInsert t k v := by
  by_cases hm : t.m = 0
  · show insertAux t k v 0 t.m = specInsertGo t k v (List.range t.m)
    rw [hm]
    rfl
  · show insertAux t k v 0 t.m = specInsertGo t k v (List.range t.m)
    rw [List.range_eq_range', insertAux_eq_specGo t k v hm t.m 0]

/-- C4: insert_brent coincides with the spec description: at each probe
step with a foreign occupant it tries the new key's next probe position
alt1, then the occupant's own next position alt2 with relocation, else
continues; free slots and duplicates behave as in plain insert and
exhaustion yields NOT_FOUND. -/
theorem claim_c4_brent_refines_spec {V : Type} (t : HashTable V) (k : Int)
    (v : Option V) : t.insert_brent k v = specInsertBrent t k v := by
  by_cases hm : t.m = 0
  · show insertBrentAux t k v 0 t.m = specInsertBrentGo t k v (List.range t.m)
    rw [hm]
    rfl
  · show insertBrentAux t k v 0 t.m = specInsertBrentGo t k v (List.range t.m)
    rw [List.range_eq_range', insertBrentAux_eq_specGo t k v hm t.m 0]

/-- C5: get_position scans the full probe sequence, skipping free slots
rather than stopping at them, and returns the first occupied slot with a
matching key, or NOT_FOUND; retrieve and delete delegate to exactly this
scan. -/
theorem claim_c5_lookup_refines_spec {V : Type} (t : HashTable V) (k : Int) :
    t.get_position k = specGetPosition t k ∧
    t.retrieve k = (if specGetPosition t k = -1 then none
      else t.valueAt (specGetPosition t k).toNat) ∧
    t.delete k = (if specGetPosition t k = -1 then (-1, t)
      else (specGetPosition t k,
        t.tombstoneAt (specGetPosition t k).toNat)) := by
  have hgp : t.get_position k = specGetPosition t k := by
    by_cases hm : t.m = 0
    · show getPositionAux t k 0 t.m = specGetPositionGo t k (List.range t.m)
      rw [hm]
      rfl
    · show getPositionAux t k 0 t.m = specGetPositionGo t k (List.range t.m)
      rw [List.range_eq_range', getPosAux_eq_specGo t k hm t.m 0]
  refine ⟨hgp, ?_, ?_⟩
  · unfold HashTable.retrieve
    rw [hgp]
  · unfold HashTable.delete
    rw [hgp]

theorem slotAt_tombstoneAt_self {V : Type} (t : HashTable V) {p : Nat}
    (hp : p < t.table.length) :
    (t.tombstoneAt p).slotAt p = some ⟨none, none⟩ := by
  unfold HashTable.slotAt HashTable.tombstoneAt
  rw [List.getD_eq_getElem?_getD, List.getElem?_set_self hp]
  rfl

theorem slotAt_tombstoneAt_ne {V : Type} (t : HashTable V) {p q : Nat}
    (hpq : p ≠ q) : (t.tombstoneAt p).slotAt q = t.slotAt q := by
  unfold HashTable.slotAt HashTable.tombstoneAt
  rw [List.getD_eq_getElem?_getD, List.getElem?_set_ne hpq,
    ← List.getD_eq_getElem?_getD]

theorem keyAt_tombstoneAt_self {V : Type} (t : HashTable V) {p : Nat}
    (hp : p < t.table.length) : (t.tombstoneAt p).keyAt p = none := by
  unfold HashTable.keyAt
  rw [slotAt_tombstoneAt_self t hp]
  rfl

theorem keyAt_tombstoneAt_ne {V : Type} (t : HashTable V) {p q : Nat}
    (hpq : p ≠ q) : (t.tombstoneAt p).keyAt q = t.keyAt q := by
  unfold HashTable.keyAt
  rw [slotAt_tombstoneAt_ne t hpq]

/-- C2, amended: the round trip holds for a well-formed table in which no
slot already holds the key being inserted.  If insert(k, v) succeeds
returning index i, then retrieve(k) returns v, a subsequent delete(k)
returns i, and after that delete retrieve(k) signals NotFound. -/
theorem claim_c2_roundtrip_fresh_key {V : Type} (t : HashTable V) (k : Int)
    (v : Option V) (hwf : WF t)
    (habs : ∀ p, p < t.table.length → t.keyAt p ≠ some k)
    (hsucc : (t.insert k v).1 ≠ -1) :
    (t.insert k v).2.retrieve k = v ∧
    ((t.insert k v).2.delete k).1 = (t.insert k v).1 ∧
    (((t.insert k v).2.delete k).2).retrieve k = none := by
  rcases insert_cases t k v with h | ⟨j, hj1, hj2, hj3, hj4⟩
  · rw [h] at hsucc
    exact absurd rfl hsucc
  · have hm : 0 < t.m := by omega
    have hwl : t.m = t.table.length := hwf
    have hpj : (probe k j t.m).toNat < t.table.length := by
      have := probe_toNat_lt k j hm
      omega
    rw [hj4]
    have hne : ∀ jp, jp < j → (probe k jp t.m).toNat ≠ (probe k j t.m).toNat := by
      intro jp hjp heq
      have h1 := (hj3 jp hjp).1
      rw [heq] at h1
      rw [h1] at hj2
      exact absurd hj2 (by simp)
    have hkey1 : ∀ s, s < t.m →
        (t.set_key_value (probe k j t.m).toNat k v).keyAt
          (probe k s (t.set_key_value (probe k j t.m).toNat k v).m).toNat
          = some k → s = j ∨ ¬s < j := by
      intro s _ hs
      by_cases hsj : s = j
      · exact Or.inl hsj
      · right
        intro hslt
        rw [m_set_key_value] at hs
        rw [keyAt_set_key_value_ne t k v (fun he => hne s hslt he.symm)] at hs
        exact (hj3 s hslt).2 hs
    have hgp1 : (t.set_key_value (probe k j t.m).toNat k v).get_position k
        = probe k j t.m := by
      unfold HashTable.get_position
      have hfound := getPosAux_found
        (t.set_key_value (probe k j t.m).toNat k v) k
        (t.set_key_value (probe k j t.m).toNat k v).m 0 j (Nat.zero_le j)
        (by rw [m_set_key_value]; omega) ?_ ?_
      · rw [hfound, m_set_key_value]
      · rw [m_set_key_value]
        rw [keyAt_set_key_value_self t k v hpj]
      · intro jp _ hjp
        rw [m_set_key_value]
        rw [keyAt_set_key_value_ne t k v (fun he => hne jp hjp he.symm)]
        exact (hj3 jp hjp).2
    have hretr1 : (t.set_key_value (probe k j t.m).toNat k v).retrieve k
        = v := by
      unfold HashTable.retrieve
      rw [hgp1, if_neg (probe_ne_neg_one k j hm)]
      rw [valueAt_set_key_value_self t k v hpj]
    have hdel : (t.set_key_value (probe k j t.m).toNat k v).delete k
        = (probe k j t.m,
           (t.set_key_value (probe k j t.m).toNat k v).tombstoneAt
             (probe k j t.m).toNat) := by
      unfold HashTable.delete
      rw [hgp1]
      rw [if_neg (probe_ne_neg_one k j hm)]
    refine ⟨hretr1, by rw [hdel], ?_⟩
    rw [hdel]
    apply retrieve_absent
    intro p hp
    by_cases hpeq : p = (probe k j t.m).toNat
    · subst hpeq
      rw [keyAt_tombstoneAt_self _ (by rw [length_set_key_value]; exact hpj)]
      simp
    · rw [keyAt_tombstoneAt_ne _ (fun he => hpeq he.symm)]
      rw [keyAt_set_key_value_ne t k v (fun he => hpeq he.symm)]
      apply habs
      rw [length_tombstoneAt, length_set_key_value] at hp
      exact hp

/-- C2 witness for the amended claim: inserting key 0 into a well-formed
capacity-5 table holding only key 3. -/
theorem claim_c2_roundtrip_witness :
    ((((HashTable.init Int 5).insert 3 (some 1)).2.insert 0 (some 9)).2
        ).retrieve 0 = some 9 ∧
    ((((HashTable.init Int 5).insert 3 (some 1)).2.insert 0
        (some 9)).2.delete 0).1
      = (((HashTable.init Int 5).insert 3 (some 1)).2.insert 0 (some 9)).1 ∧
    (((((HashTable.init Int 5).insert 3 (some 1)).2.insert 0
        (some 9)).2.delete 0).2).retrieve 0 = none :=
  claim_c2_roundtrip_fresh_key ((HashTable.init Int 5).insert 3 (some 1)).2
    0 (some 9) (by unfold WF; decide) (by decide) (by decide)

/-- C2 counterexample: on the reachable state produced by inserting keys 5
and 0 and deleting 5, inserting key 0 again succeeds at index 0, retrieve
and delete behave as claimed, but after the delete retrieve(0) returns the
stale value 7 from the older duplicate of key 0 instead of NotFound. -/
theorem claim_c2_counterexample :
    ((run Int 5 [Op.ins 5 (some 55), Op.ins 0 (some 7),
        Op.del 5]).insert 0 (some 9)).1 = 0 ∧
    (((run Int 5 [Op.ins 5 (some 55), Op.ins 0 (some 7),
        Op.del 5]).insert 0 (some 9)).2).retrieve 0 = some 9 ∧
    ((((run Int 5 [Op.ins 5 (some 55), Op.ins 0 (some 7),
        Op.del 5]).insert 0 (some 9)).2).delete 0).1 = 0 ∧
    (((((run Int 5 [Op.ins 5 (some 55), Op.ins 0 (some 7),
        Op.del 5]).insert 0 (some 9)).2).delete 0).2).retrieve 0
      = some 7 ∧
    ¬((((((run Int 5 [Op.ins 5 (some 55), Op.ins 0 (some 7),
        Op.del 5]).insert 0 (some 9)).2).delete 0).2).retrieve 0
      = none) := by decide

/-! The occupied-slots-lie-on-their-own-probe-sequence invariant. -/

theorem OnSeq_set_on_probe {V : Type} {t : HashTable V} (k : Int)
    (v : Option V) {j : Nat} (hwf : WF t) (hseq : OnSeq t) (hj : j < t.m) :
    OnSeq (t.set_key_value (probe k j t.m).toNat k v) := by
  have hm : 0 < t.m := by omega
  have hwl : t.m = t.table.length := hwf
  have hpj : (probe k j t.m).toNat < t.table.length := by
    have := probe_toNat_lt k j hm
    omega
  intro p k0 hp
  rw [m_set_key_value]
  by_cases hpe : p = (probe k j t.m).toNat
  · subst hpe
    rw [keyAt_set_key_value_self t k v hpj] at hp
    have hk0 : k0 = k := by injection hp with h1; exact h1.symm
    subst hk0
    exact ⟨j, hj, rfl⟩
  · rw [keyAt_set_key_value_ne t k v (fun he => hpe he.symm)] at hp
    exact hseq p k0 hp

theorem OnSeq_insert {V : Type} {t : HashTable V} (k : Int) (v : Option V)
    (hwf : WF t) (hseq : OnSeq t) : OnSeq (t.insert k v).2 := by
  rcases insert_cases t k v with h | ⟨j, hj1, _, _, hj4⟩
  · rw [h]
    exact hseq
  · rw [hj4]
    exact OnSeq_set_on_probe k v hwf hseq hj1

theorem OnSeq_insert_brent {V : Type} {t : HashTable V} (k : Int)
    (v : Option V) (hwf : WF t) (hseq : OnSeq t) :
    OnSeq (t.insert_brent k v).2 := by
  rcases insertBrentAux_cases t k v t.m 0 with h | ⟨j, _, hj2, hcase⟩
  · show OnSeq (insertBrentAux t k v 0 t.m).2
    rw [h]
    exact hseq
  · have hm : 0 < t.m := by omega
    have hwl : t.m = t.table.length := hwf
    have hj : j < t.m := by omega
    rcases hcase with ⟨hf, heq⟩ | ⟨hf, hkk, hf1, heq⟩ |
      ⟨e, ek, hse, hek, hf, hkk, hf1, hf2, heq⟩
    · show OnSeq (insertBrentAux t k v 0 t.m).2
      rw [heq]
      exact OnSeq_set_on_probe k v hwf hseq hj
    · show OnSeq (insertBrentAux t k v 0 t.m).2
      rw [heq]
      have h1 : pymod (probe k j t.m - hk2 k t.m) (t.m : Int)
          = probe k ((j + 1) % t.m) t.m := by
        rw [probe_succ k j hm, probe_mod_self k (j + 1) hm]
      rw [h1]
      exact OnSeq_set_on_probe k v hwf hseq (Nat.mod_lt _ hm)
    · show OnSeq (insertBrentAux t k v 0 t.m).2
      rw [heq]
      have hkek : t.keyAt (probe k j t.m).toNat = some ek := by
        rw [keyAt_eq_of_not_free hse, hek]
      obtain ⟨jj, hjj1, hjj2⟩ := hseq _ ek hkek
      have hcast : probe k j t.m = probe ek jj t.m := by
        rw [← probe_toNat_cast k j hm, ← probe_toNat_cast ek jj hm, ← hjj2]
      have h2 : pymod (probe k j t.m - hk2 ek t.m) (t.m : Int)
          = probe ek ((jj + 1) % t.m) t.m := by
        rw [hcast, probe_succ ek jj hm, probe_mod_self ek (jj + 1) hm]
      rw [h2]
      have hpj : (probe k j t.m).toNat < t.table.length := by
        have := probe_toNat_lt k j hm
        omega
      have hseq1 : OnSeq (t.set_key_value
          (probe ek ((jj + 1) % t.m) t.m).toNat ek e.value) :=
        OnSeq_set_on_probe ek e.value hwf hseq (Nat.mod_lt _ hm)
      have hwf1 : WF (t.set_key_value
          (probe ek ((jj + 1) % t.m) t.m).toNat ek e.value) := by
        show _ = _
        rw [m_set_key_value, length_set_key_value]
        exact hwl
      have hfin := OnSeq_set_on_probe (t := t.set_key_value
          (probe ek ((jj + 1) % t.m) t.m).toNat ek e.value) k v hwf1
        hseq1 (j := j) (by rw [m_set_key_value]; exact hj)
      have hmm : (t.set_key_value
          (probe ek ((jj + 1) % t.m) t.m).toNat ek e.value).m = t.m :=
        m_set_key_value t _ ek e.value
      rw [hmm] at hfin
      exact hfin

theorem OnSeq_delete {V : Type} {t : HashTable V} (k : Int) (hwf : WF t)
    (hseq : OnSeq t) : OnSeq (t.delete k).2 := by
  by_cases hgp : t.get_position k = -1
  · have h : (t.delete k).2 = t := by
      unfold HashTable.delete
      rw [hgp]
      rfl
    rw [h]
    exact hseq
  · obtain ⟨j, _, hj2, hj3, _⟩ := getPosAux_mem t k t.m 0 hgp
    have hm : 0 < t.m := by omega
    have hwl : t.m = t.table.length := hwf
    have h : (t.delete k).2 = t.tombstoneAt (t.get_position k).toNat := by
      unfold HashTable.delete
      rw [if_neg hgp]
    rw [h]
    have hgpj : t.get_position k = probe k j t.m := hj3
    rw [hgpj]
    have hpj : (probe k j t.m).toNat < t.table.length := by
      have := probe_toNat_lt k j hm
      omega
    intro p k0 hp
    have hmt : (t.tombstoneAt (probe k j t.m).toNat).m = t.m := rfl
    rw [hmt]
    by_cases hpe : p = (probe k j t.m).toNat
    · subst hpe
      rw [keyAt_tombstoneAt_self t hpj] at hp
      exact absurd hp (by simp)
    · rw [keyAt_tombstoneAt_ne t (fun he => hpe he.symm)] at hp
      exact hseq p k0 hp

theorem getPosAux_ne_neg_one {V : Type} (t : HashTable V) (k : Int)
    (hm : 0 < t.m) :
    ∀ (fuel i s : Nat), i ≤ s → s < i + fuel →
      t.keyAt (probe k s t.m).toNat = some k →
      getPositionAux t k i fuel ≠ -1 := by
  intro fuel
  induction fuel with
  | zero => intro i s h1 h2 _; omega
  | succ n ih =>
    intro i s h1 h2 hks
    simp only [getPositionAux]
    cases hf : t.is_free (probe k i t.m).toNat
    · by_cases hkk : t.keyAt (probe k i t.m).toNat = some k
      · simp [hf, hkk]
        exact probe_ne_neg_one k i hm
      · have hsi : s ≠ i := fun he => hkk (he ▸ hks)
        simp [hf, hkk]
        exact ih (i + 1) s (by omega) (by omega) hks
    · have hsi : s ≠ i := by
        intro he
        subst he
        rw [keyAt_some_not_free hks] at hf
        exact absurd hf (by simp)
      simp [hf]
      exact ih (i + 1) s (by omega) (by omega) hks

theorem get_position_found {V : Type} {t : HashTable V}
    (hseq : OnSeq t) (p : Nat) (k0 : Int) (hp : t.keyAt p = some k0) :
    t.get_position k0 ≠ -1 := by
  obtain ⟨i0, hi1, hi2⟩ := hseq p k0 hp
  have hm : 0 < t.m := by omega
  exact getPosAux_ne_neg_one t k0 hm t.m 0 i0 (Nat.zero_le _) (by omega)
    (hi2 ▸ hp)

theorem OnSeq_init {V : Type} (size : Nat) : OnSeq (HashTable.init V size) :=
  fun p k h => absurd h (by rw [keyAt_init]; simp)

theorem OnSeq_step {V : Type} {t : HashTable V} (hwf : WF t)
    (hseq : OnSeq t) (op : Op V) : OnSeq (step t op) := by
  cases op with
  | ins k v => exact OnSeq_insert k v hwf hseq
  | insB k v => exact OnSeq_insert_brent k v hwf hseq
  | del k => exact OnSeq_delete k hwf hseq
  | ret k => exact hseq

theorem OnSeq_foldl_step {V : Type} :
    ∀ (l : List (Op V)) (t : HashTable V), WF t → OnSeq t →
      OnSeq (l.foldl step t) := by
  intro l
  induction l with
  | nil => intro t _ hseq; exact hseq
  | cons o r ih =>
    intro t hwf hseq
    rw [List.foldl_cons]
    exact ih _ (WF_step hwf o) (OnSeq_step hwf hseq o)

theorem OnSeq_run {V : Type} (size : Nat) (ops : List (Op V)) :
    OnSeq (run V size ops) :=
  OnSeq_foldl_step ops _ (WF_init size) (OnSeq_init size)

/-- C9: on every table reachable by a sequence of operations, every
occupied slot lies on its own key's probe sequence; the next operation of
any kind keeps it that way (insert_brent in particular relocates an entry
only to its own next probe position), and every stored key is found by
get_position, both before and after an insert_brent. -/
theorem claim_c9_probe_seq_invariant {V : Type} (size : Nat)
    (ops : List (Op V)) (k : Int) (v : Option V) :
    OnSeq (run V size ops) ∧
    OnSeq ((run V size ops).insert k v).2 ∧
    OnSeq ((run V size ops).insert_brent k v).2 ∧
    OnSeq ((run V size ops).delete k).2 ∧
    (∀ p k0, (run V size ops).keyAt p = some k0 →
      (run V size ops).get_position k0 ≠ -1) ∧
    (∀ p k0, ((run V size ops).insert_brent k v).2.keyAt p = some k0 →
      ((run V size ops).insert_brent k v).2.get_position k0 ≠ -1) := by
  have hwf : WF (run V size ops) := WF_run size ops
  have hseq : OnSeq (run V size ops) := OnSeq_run size ops
  have hseqB : OnSeq ((run V size ops).insert_brent k v).2 :=
    OnSeq_insert_brent k v hwf hseq
  exact ⟨hseq, OnSeq_insert k v hwf hseq, hseqB, OnSeq_delete k hwf hseq,
    fun p k0 hp => get_position_found hseq p k0 hp,
    fun p k0 hp => get_position_found hseqB p k0 hp⟩

/-! The no-duplicate-keys invariant for sequences of plain inserts. -/

/-- Every occupied slot sits at some probe attempt j of its key with all
earlier attempts non-free; with no deletions this is maintained and forces
duplicate detection to fire before a second copy can be placed. -/
def ProbePrefixOccupied {V : Type} (t : HashTable V) : Prop :=
  ∀ p k, t.keyAt p = some k → ∃ j, j < t.m ∧ p = (probe k j t.m).toNat ∧
    ∀ jp, jp < j → t.is_free (probe k jp t.m).toNat = false

theorem is_free_set_key_value_false {V : Type} (t : HashTable V)
    {i x : Nat} (k : Int) (v : Option V) (hi : i < t.table.length)
    (h : t.is_free x = false) : (t.set_key_value i k v).is_free x = false := by
  by_cases hxi : i = x
  · subst hxi
    exact is_free_set_key_value_self t k v hi
  · rw [is_free_set_key_value_ne t k v hxi]
    exact h

theorem NoDupKeys_insert {V : Type} {t : HashTable V} (k : Int)
    (v : Option V) (hwf : WF t) (hnd : NoDupKeys t)
    (hppo : ProbePrefixOccupied t) : NoDupKeys (t.insert k v).2 := by
  rcases insert_cases t k v with h | ⟨j, hj1, hj2, hj3, hj4⟩
  · rw [h]
    exact hnd
  · rw [hj4]
    have hm : 0 < t.m := by omega
    have hwl : t.m = t.table.length := hwf
    have hpj : (probe k j t.m).toNat < t.table.length := by
      have := probe_toNat_lt k j hm
      omega
    have hnodup_new : ∀ q, q ≠ (probe k j t.m).toNat →
        t.keyAt q ≠ some k := by
      intro q hq hqk
      obtain ⟨jq, hjq1, hjq2, hjq3⟩ := hppo q k hqk
      rcases Nat.lt_trichotomy jq j with hlt | heq | hgt
      · exact (hj3 jq hlt).2 (hjq2 ▸ hqk)
      · exact hq (heq ▸ hjq2)
      · have hfree := hjq3 j hgt
        rw [hj2] at hfree
        exact absurd hfree (by simp)
    intro p q k1 hp hq
    by_cases hpe : p = (probe k j t.m).toNat
    · by_cases hqe : q = (probe k j t.m).toNat
      · rw [hpe, hqe]
      · subst hpe
        rw [keyAt_set_key_value_self t k v hpj] at hp
        have hk1 : k = k1 := Option.some.inj hp
        subst hk1
        rw [keyAt_set_key_value_ne t k v (fun he => hqe he.symm)] at hq
        exact absurd hq (hnodup_new q hqe)
    · by_cases hqe : q = (probe k j t.m).toNat
      · subst hqe
        rw [keyAt_set_key_value_self t k v hpj] at hq
        have hk1 : k = k1 := Option.some.inj hq
        subst hk1
        rw [keyAt_set_key_value_ne t k v (fun he => hpe he.symm)] at hp
        exact absurd hp (hnodup_new p hpe)
      · rw [keyAt_set_key_value_ne t k v (fun he => hpe he.symm)] at hp
        rw [keyAt_set_key_value_ne t k v (fun he => hqe he.symm)] at hq
        exact hnd p q k1 hp hq

theorem ProbePrefixOccupied_insert {V : Type} {t : HashTable V} (k : Int)
    (v : Option V) (hwf : WF t) (hppo : ProbePrefixOccupied t) :
    ProbePrefixOccupied (t.insert k v).2 := by
  rcases insert_cases t k v with h | ⟨j, hj1, hj2, hj3, hj4⟩
  · rw [h]
    exact hppo
  · rw [hj4]
    have hm : 0 < t.m := by omega
    have hwl : t.m = t.table.length := hwf
    have hpj : (probe k j t.m).toNat < t.table.length := by
      have := probe_toNat_lt k j hm
      omega
    intro p k1 hp
    rw [m_set_key_value]
    by_cases hpe : p = (probe k j t.m).toNat
    · subst hpe
      rw [keyAt_set_key_value_self t k v hpj] at hp
      have hk1 : k = k1 := Option.some.inj hp
      subst hk1
      refine ⟨j, hj1, rfl, ?_⟩
      intro jp hjp
      exact is_free_set_key_value_false t k v hpj (hj3 jp hjp).1
    · rw [keyAt_set_key_value_ne t k v (fun he => hpe he.symm)] at hp
      obtain ⟨jq, hjq1, hjq2, hjq3⟩ := hppo p k1 hp
      refine ⟨jq, hjq1, hjq2, ?_⟩
      intro jp hjp
      exact is_free_set_key_value_false t k v hpj (hjq3 jp hjp)

/-- The three-part invariant for insert-only execution. -/
def InvIns {V : Type} (t : HashTable V) : Prop :=
  WF t ∧ NoDupKeys t ∧ ProbePrefixOccupied t

theorem InvIns_init {V : Type} (size : Nat) :
    InvIns (HashTable.init V size) := by
  refine ⟨WF_init size, ?_, ?_⟩
  · intro p q k hp _
    rw [keyAt_init] at hp
    exact absurd hp (by simp)
  · intro p k hp
    rw [keyAt_init] at hp
    exact absurd hp (by simp)

theorem InvIns_insert {V : Type} {t : HashTable V} (k : Int) (v : Option V)
    (h : InvIns t) : InvIns (t.insert k v).2 := by
  obtain ⟨hwf, hnd, hppo⟩ := h
  refine ⟨?_, NoDupKeys_insert k v hwf hnd hppo,
    ProbePrefixOccupied_insert k v hwf hppo⟩
  show ((insertAux t k v 0 t.m).2).m = ((insertAux t k v 0 t.m).2).table.length
  rw [insertAux_m, insertAux_length]
  exact hwf

theorem InvIns_foldl {V : Type} :
    ∀ (ops : List (Op V)) (t : HashTable V),
      (∀ op ∈ ops, op.isInsOrRet = true) → InvIns t →
      InvIns (ops.foldl step t) := by
  intro ops
  induction ops with
  | nil => intro t _ ht; exact ht
  | cons op rest ih =>
    intro t hops ht
    rw [List.foldl_cons]
    have hop : op.isInsOrRet = true := hops op (List.mem_cons_self op rest)
    have hrest : ∀ o ∈ rest, Op.isInsOrRet o = true :=
      fun o ho => hops o (List.mem_cons_of_mem op ho)
    refine ih (step t op) hrest ?_
    cases op with
    | ins k v => exact InvIns_insert k v ht
    | insB k v => exact absurd hop (by simp [Op.isInsOrRet])
    | del k => exact absurd hop (by simp [Op.isInsOrRet])
    | ret k => exact ht

/-- C1, amended: along every sequence built from plain insert and retrieve
only, every reachable table state has at most one Occupied slot per
distinct key.  (With delete or insert_brent in the sequence the property
fails, see the counterexample.) -/
theorem claim_c1_amended_no_dup_keys {V : Type} (size : Nat)
    (ops : List (Op V)) (hops : ∀ op ∈ ops, op.isInsOrRet = true) :
    NoDupKeys (run V size ops) :=
  (InvIns_foldl ops (HashTable.init V size) hops (InvIns_init size)).2.1

/-- C1 witness for the amended claim: a concrete insert-and-retrieve
sequence on a capacity-3 table. -/
theorem claim_c1_amended_witness :
    NoDupKeys (run Int 3 [Op.ins 1 (some 2), Op.ret 1, Op.ins 2 none]) :=
  claim_c1_amended_no_dup_keys 3
    [Op.ins 1 (some 2), Op.ret 1, Op.ins 2 none] (by decide)

/-- C1 counterexample: after inserting keys 5 and 0 and then calling
insert_brent with key 0 again, key 0 occupies both slot 0 and slot 4 of
the capacity-5 table, so the at-most-one-slot-per-key invariant is not
maintained by every operation sequence. -/
theorem claim_c1_counterexample :
    (run Int 5 [Op.ins 5 (some 55), Op.ins 0 (some 7),
      Op.insB 0 (some 9)]).keyAt 0 = some 0 ∧
    (run Int 5 [Op.ins 5 (some 55), Op.ins 0 (some 7),
      Op.insB 0 (some 9)]).keyAt 4 = some 0 ∧
    ¬ NoDupKeys (run Int 5 [Op.ins 5 (some 55), Op.ins 0 (some 7),
      Op.insB 0 (some 9)]) := by
  refine ⟨by decide, by decide, fun h => ?_⟩
  have h04 := h 0 4 0 (by decide) (by decide)
  exact absurd h04 (by decide)

/-! Checked variants of the operations: every Python % is replaced by a
checked remainder that fails (None) on a zero modulus, exactly where the
interpreter would raise ZeroDivisionError.  Proving the checked operations
equal to the plain ones shows that no operation ever divides by zero. -/

/-- Python % with an explicit failure on modulus zero. -/
def pymodChk (a b : Int) : Option Int :=
  if b = 0 then none else some (pymod a b)

/-- Checked hk. -/
def hkChk (k : Int) (m : Nat) : Option Int :=
  if m = 0 then some 0 else pymodChk k (m : Int)

/-- Checked hk2. -/
def hk2Chk (k : Int) (m : Nat) : Option Int :=
  if m = 2 then some 0
  else (pymodChk k ((m : Int) - 2)).map (fun r => 1 + r)

/-- Checked probe position. -/
def probeChk (k : Int) (i m : Nat) : Option Int :=
  (hkChk k m).bind fun a =>
    (hk2Chk k m).bind fun b => pymodChk (a - (i : Int) * b) (m : Int)

theorem pymodChk_eq {b : Int} (a : Int) (hb : b ≠ 0) :
    pymodChk a b = some (pymod a b) := by
  unfold pymodChk
  rw [if_neg hb]

theorem hkChk_eq (k : Int) (m : Nat) : hkChk k m = some (hk k m) := by
  unfold hkChk hk
  by_cases hm : m = 0
  · simp [hm]
  · rw [if_neg hm, if_neg hm, pymodChk_eq _ (by exact_mod_cast hm)]

theorem hk2Chk_eq (k : Int) (m : Nat) : hk2Chk k m = some (hk2 k m) := by
  unfold hk2Chk hk2
  by_cases hm : m = 2
  · simp [hm]
  · have hb : ((m : Int) - 2) ≠ 0 := by omega
    rw [if_neg hm, if_neg hm, pymodChk_eq _ hb]
    rfl

theorem probeChk_eq (k : Int) (i : Nat) {m : Nat} (hm : m ≠ 0) :
    probeChk k i m = some (probe k i m) := by
  unfold probeChk probe
  rw [hkChk_eq, hk2Chk_eq, Option.some_bind, Option.some_bind,
    pymodChk_eq _ (by exact_mod_cast hm : ((m : Nat) : Int) ≠ 0)]

/-- Checked loop body of insert. -/
def insertChkAux {V : Type} (t : HashTable V) (k : Int) (v : Option V) :
    Nat → Nat → Option (Int × HashTable V)
  | _, 0 => some (-1, t)
  | i, fuel + 1 =>
    (probeChk k i t.m).bind fun hash =>
      if t.is_free hash.toNat then some (hash, t.set_key_value hash.toNat k v)
      else if t.keyAt hash.toNat = some k then some (-1, t)
      else insertChkAux t k v (i + 1) fuel

/-- Checked insert. -/
def insertChk {V : Type} (t : HashTable V) (k : Int) (v : Option V) :
    Option (Int × HashTable V) :=
  insertChkAux t k v 0 t.m

/-- Checked loop body of insert_brent. -/
def insertBrentChkAux {V : Type} (t : HashTable V) (k : Int)
    (v : Option V) : Nat → Nat → Option (Int × HashTable V)
  | _, 0 => some (-1, t)
  | i, fuel + 1 =>
    (probeChk k i t.m).bind fun hash =>
      if t.is_free hash.toNat then some (hash, t.set_key_value hash.toNat k v)
      else if t.keyAt hash.toNat = some k then some (-1, t)
      else
        (hk2Chk k t.m).bind fun s1 =>
          (pymodChk (hash - s1) (t.m : Int)).bind fun hash1 =>
            if t.is_free hash1.toNat then
              some (hash1, t.set_key_value hash1.toNat k v)
            else
              match t.slotAt hash.toNat with
              | none => some (-1, t)
              | some e =>
                match e.key with
                | none => some (-1, t)
                | some ek =>
                  (hk2Chk ek t.m).bind fun s2 =>
                    (pymodChk (hash - s2) (t.m : Int)).bind fun hash2 =>
                      if t.is_free hash2.toNat then
                        some (hash,
                          (t.set_key_value hash2.toNat ek
                            e.value).set_key_value hash.toNat k v)
                      else insertBrentChkAux t k v (i + 1) fuel

/-- Checked insert_brent. -/
def insertBrentChk {V : Type} (t : HashTable V) (k : Int) (v : Option V) :
    Option (Int × HashTable V) :=
  insertBrentChkAux t k v 0 t.m

/-- Checked loop body of get_position. -/
def getPositionChkAux {V : Type} (t : HashTable V) (k : Int) :
    Nat → Nat → Option Int
  | _, 0 => some (-1)
  | i, fuel + 1 =>
    (probeChk k i t.m).bind fun hash =>
      if t.is_free hash.toNat then getPositionChkAux t k (i + 1) fuel
      else if t.keyAt hash.toNat = some k then some hash
      else getPositionChkAux t k (i + 1) fuel

/-- Checked get_position. -/
def getPositionChk {V : Type} (t : HashTable V) (k : Int) : Option Int :=
  getPositionChkAux t k 0 t.m

/-- Checked retrieve. -/
def retrieveChk {V : Type} (t : HashTable V) (k : Int) :
    Option (Option V) :=
  (getPositionChk t k).bind fun hash =>
    if hash = -1 then some none else some (t.valueAt hash.toNat)

/-- Checked delete. -/
def deleteChk {V : Type} (t : HashTable V) (k : Int) :
    Option (Int × HashTable V) :=
  (getPositionChk t k).bind fun hash =>
    if hash = -1 then some (-1, t)
    else some (hash, t.tombstoneAt hash.toNat)

theorem insertChkAux_eq {V : Type} (t : HashTable V) (k : Int)
    (v : Option V) (hm : t.m ≠ 0) :
    ∀ (fuel i : Nat),
      insertChkAux t k v i fuel = some (insertAux t k v i fuel) := by
  intro fuel
  induction fuel with
  | zero => intro i; rfl
  | succ n ih =>
    intro i
    simp only [insertChkAux, insertAux]
    rw [probeChk_eq k i hm, Option.some_bind]
    cases hf : t.is_free (probe k i t.m).toNat
    · by_cases hkk : t.keyAt (probe k i t.m).toNat = some k
      · simp [hf, hkk]
      · simp [hf, hkk, ih (i + 1)]
    · simp [hf]

theorem insertChk_eq {V : Type} (t : HashTable V) (k : Int) (v : Option V) :
    insertChk t k v = some (t.insert k v) := by
  by_cases hm : t.m = 0
  · show insertChkAux t k v 0 t.m = some (insertAux t k v 0 t.m)
    rw [hm]
    rfl
  · exact insertChkAux_eq t k v hm t.m 0

theorem insertBrentChkAux_eq {V : Type} (t : HashTable V) (k : Int)
    (v : Option V) (hm : t.m ≠ 0) :
    ∀ (fuel i : Nat),
      insertBrentChkAux t k v i fuel
        = some (insertBrentAux t k v i fuel) := by
  intro fuel
  induction fuel with
  | zero => intro i; rfl
  | succ n ih =>
    intro i
    simp only [insertBrentChkAux, insertBrentAux]
    rw [probeChk_eq k i hm, Option.some_bind]
    cases hf : t.is_free (probe k i t.m).toNat
    · by_cases hkk : t.keyAt (probe k i t.m).toNat = some k
      · simp [hf, hkk]
      · obtain ⟨e, ek, hse, hek⟩ := not_free_cases hf
        rw [hk2Chk_eq, Option.some_bind,
          pymodChk_eq _ (by exact_mod_cast hm : ((t.m : Nat) : Int) ≠ 0),
          Option.some_bind]
        cases hf1 : t.is_free ((pymod (probe k i t.m - hk2 k t.m)
            (t.m : Int)).toNat)
        · cases hf2 : t.is_free ((pymod (probe k i t.m - hk2 ek t.m)
              (t.m : Int)).toNat)
          · simp only [hf, hkk, hse, hek, hf1]
            simp only [Bool.false_eq_true, if_false, ite_false, ite_true]
            simp [hse, hek, hk2Chk_eq,
              pymodChk_eq _ (by exact_mod_cast hm : ((t.m : Nat) : Int) ≠ 0),
              hf2, ih (i + 1)]
          · simp only [hf, hkk, hse, hek, hf1]
            simp only [Bool.false_eq_true, if_false, ite_false, ite_true]
            simp [hse, hek, hk2Chk_eq,
              pymodChk_eq _ (by exact_mod_cast hm : ((t.m : Nat) : Int) ≠ 0),
              hf2]
        · simp [hf, hkk, hf1]
    · simp [hf]

theorem insertBrentChk_eq {V : Type} (t : HashTable V) (k : Int)
    (v : Option V) : insertBrentChk t k v = some (t.insert_brent k v) := by
  by_cases hm : t.m = 0
  · show insertBrentChkAux t k v 0 t.m = some (insertBrentAux t k v 0 t.m)
    rw [hm]
    rfl
  · exact insertBrentChkAux_eq t k v hm t.m 0

theorem getPositionChkAux_eq {V : Type} (t : HashTable V) (k : Int)
    (hm : t.m ≠ 0) :
    ∀ (fuel i : Nat),
      getPositionChkAux t k i fuel = some (getPositionAux t k i fuel) := by
  intro fuel
  induction fuel with
  | zero => intro i; rfl
  | succ n ih =>
    intro i
    simp only [getPositionChkAux, getPositionAux]
    rw [probeChk_eq k i hm, Option.some_bind]
    cases hf : t.is_free (probe k i t.m).toNat
    · by_cases hkk : t.keyAt (probe k i t.m).toNat = some k
      · simp [hf, hkk]
      · simp [hf, hkk, ih (i + 1)]
    · simp [hf, ih (i + 1)]

theorem getPositionChk_eq {V : Type} (t : HashTable V) (k : Int) :
    getPositionChk t k = some (t.get_position k) := by
  by_cases hm : t.m = 0
  · show getPositionChkAux t k 0 t.m = some (getPositionAux t k 0 t.m)
    rw [hm]
    rfl
  · exact getPositionChkAux_eq t k hm t.m 0

theorem retrieveChk_eq {V : Type} (t : HashTable V) (k : Int) :
    retrieveChk t k = some (t.retrieve k) := by
  unfold retrieveChk HashTable.retrieve
  rw [getPositionChk_eq, Option.some_bind]
  by_cases h : t.get_position k = -1 <;> simp [h]

theorem deleteChk_eq {V : Type} (t : HashTable V) (k : Int) :
    deleteChk t k = some (t.delete k) := by
  unfold deleteChk HashTable.delete
  rw [getPositionChk_eq, Option.some_bind]
  by_cases h : t.get_position k = -1 <;> simp [h]

/-- Checked effect of one operation. -/
def stepChk {V : Type} (t : HashTable V) : Op V → Option (HashTable V)
  | .ins k v => (insertChk t k v).map Prod.snd
  | .insB k v => (insertBrentChk t k v).map Prod.snd
  | .del k => (deleteChk t k).map Prod.snd
  | .ret k => (retrieveChk t k).map (fun _ => t)

/-- Checked run of an operation sequence. -/
def runChk (V : Type) (size : Nat) (ops : List (Op V)) :
    Option (HashTable V) :=
  ops.foldlM stepChk (HashTable.init V size)

theorem stepChk_eq {V : Type} (t : HashTable V) (op : Op V) :
    stepChk t op = some (step t op) := by
  cases op with
  | ins k v => show (insertChk t k v).map Prod.snd = _; rw [insertChk_eq]; rfl
  | insB k v =>
    show (insertBrentChk t k v).map Prod.snd = _
    rw [insertBrentChk_eq]
    rfl
  | del k => show (deleteChk t k).map Prod.snd = _; rw [deleteChk_eq]; rfl
  | ret k =>
    show (retrieveChk t k).map (fun _ => t) = _
    rw [retrieveChk_eq]
    rfl

theorem foldlM_stepChk_eq {V : Type} :
    ∀ (l : List (Op V)) (t : HashTable V),
      List.foldlM stepChk t l = some (l.foldl step t) := by
  intro l
  induction l with
  | nil => intro t; rfl
  | cons o r ih =>
    intro t
    rw [List.foldlM_cons, List.foldl_cons, stepChk_eq]
    show (some (step t o)).bind (fun x => List.foldlM stepChk x r) = _
    rw [Option.some_bind, ih (step t o)]

theorem runChk_eq {V : Type} (size : Nat) (ops : List (Op V)) :
    runChk V size ops = some (run V size ops) :=
  foldlM_stepChk_eq ops (HashTable.init V size)

/-- C8: for every construction capacity (0, 1 and 2 included) and every
operation sequence over integer keys, the checked interpretation, which
fails exactly where Python would raise on a modulus by zero, succeeds and
agrees with the plain one, so no operation raises; and on a capacity-0
table every operation returns its ordinary failure value: -1 for the
insert variants and delete, None for retrieve. -/
theorem claim_c8_no_modulus_by_zero {V : Type} (size : Nat)
    (ops : List (Op V)) (k : Int) (v : Option V) :
    runChk V size ops = some (run V size ops) ∧
    insertChk (run V size ops) k v = some ((run V size ops).insert k v) ∧
    insertBrentChk (run V size ops) k v
      = some ((run V size ops).insert_brent k v) ∧
    retrieveChk (run V size ops) k = some ((run V size ops).retrieve k) ∧
    deleteChk (run V size ops) k = some ((run V size ops).delete k) ∧
    (size = 0 →
      (run V size ops).insert k v = (-1, run V size ops) ∧
      (run V size ops).insert_brent k v = (-1, run V size ops) ∧
      (run V size ops).delete k = (-1, run V size ops) ∧
      (run V size ops).retrieve k = none) := by
  refine ⟨runChk_eq size ops, insertChk_eq _ k v, insertBrentChk_eq _ k v,
    retrieveChk_eq _ k, deleteChk_eq _ k, ?_⟩
  intro hsz
  have hm0 : (run V size ops).m = 0 := by rw [run_m, hsz]
  have hgp : (run V size ops).get_position k = -1 := by
    show getPositionAux (run V size ops) k 0 (run V size ops).m = -1
    rw [hm0]
    rfl
  refine ⟨?_, ?_, ?_, ?_⟩
  · show insertAux (run V size ops) k v 0 (run V size ops).m = _
    rw [hm0]
    rfl
  · show insertBrentAux (run V size ops) k v 0 (run V size ops).m = _
    rw [hm0]
    rfl
  · unfold HashTable.delete
    rw [hgp]
    rfl
  · unfold HashTable.retrieve
    rw [hgp]
    rfl

/-- C8 witness: the capacity-0 degenerate case on a concrete sequence. -/
theorem claim_c8_witness :
    runChk Int 0 [Op.ins 1 (some 2)]
      = some (run Int 0 [Op.ins 1 (some 2)]) ∧
    (run Int 0 [Op.ins 1 (some 2)]).insert 3 (some 4)
      = (-1, run Int 0 [Op.ins 1 (some 2)]) ∧
    (run Int 0 [Op.ins 1 (some 2)]).insert_brent 3 (some 4)
      = (-1, run Int 0 [Op.ins 1 (some 2)]) ∧
    (run Int 0 [Op.ins 1 (some 2)]).delete 3
      = (-1, run Int 0 [Op.ins 1 (some 2)]) ∧
    (run Int 0 [Op.ins 1 (some 2)]).retrieve 3 = none :=
  ⟨(claim_c8_no_modulus_by_zero 0 [Op.ins 1 (some 2)] 3 (some 4)).1,
   ((claim_c8_no_modulus_by_zero 0 [Op.ins 1 (some 2)] 3
      (some 4)).2.2.2.2.2 rfl).1,
   ((claim_c8_no_modulus_by_zero 0 [Op.ins 1 (some 2)] 3
      (some 4)).2.2.2.2.2 rfl).2.1,
   ((claim_c8_no_modulus_by_zero 0 [Op.ins 1 (some 2)] 3
      (some 4)).2.2.2.2.2 rfl).2.2.1,
   ((claim_c8_no_modulus_by_zero 0 [Op.ins 1 (some 2)] 3
      (some 4)).2.2.2.2.2 rfl).2.2.2⟩

end DoubleHash
